import Mathlib

/-!
A shallow embedding of the call-time overload-resolution core of the
`overtake` Python library: the registry class of `overtake_class.py`
(`OvertakenFunctionRegistry.__call__`, `find_incompatibility`,
`apply_defaults`, `raise_full_incompatibility`) and the first-call analysis
of `lazy_inspection.py` (`LazyOverloadsInspection`, `find_implementations`,
`raise_if_no_implementations`, `_find_arguments_to_check`).

External machinery the source calls into is modelled explicitly:

* `inspect.Signature.bind` / `bind_partial` and
  `inspect.BoundArguments.apply_defaults` are modelled after the CPython 3.11
  implementation of `inspect.Signature._bind` (two phases: a positional phase
  and a keyword phase over the remaining parameters);
* runtime values are a small closed universe `Val` (ints, strings, `None`,
  tuples, string-keyed dicts), and annotations are a closed grammar
  `TypeExpr`: a named primitive, `tuple[T, ...]`, `Dict[str, T]`,
  `Unpack[T]`, a string annotation, or the absent-annotation sentinel
  `inspect.Parameter.empty`;
* the pluggable compatibility oracle `check_type(value, hint, name, backend)`
  is an arbitrary function of type `Checker` (the backend is fixed at
  wrapper-construction time, so a chosen backend is just a function);
* the datatypes of `incompatibility_reasons.py` (whose source is not part of
  the embedded files) are modelled from the spec: `IncompatibilityReason` is
  the tagged union `BindFailure | TypeMismatch`, and the aggregate failure is
  the ordered list of per-candidate `(signature, reason)` pairs.
-/

namespace Overtake

/-- Python parameter kinds, `inspect.Parameter.kind`. -/
inductive ParamKind where
  | positionalOnly
  | positionalOrKeyword
  | keywordOnly
  | varPositional
  | varKeyword
  deriving DecidableEq, Repr

/-- Closed grammar of runtime annotations. `empty` is the sentinel
`inspect.Parameter.empty` (no declared type); `prim s` is a plain runtime
type such as `int`; `tupleOf t` is `tuple[t, ...]`; `dictOf k v` is
`Dict[k, v]`; `unpack t` is `Unpack[t]`; `strAnn s` is a string annotation. -/
inductive TypeExpr where
  | empty
  | prim (name : String)
  | tupleOf (elem : TypeExpr)
  | dictOf (key value : TypeExpr)
  | unpack (inner : TypeExpr)
  | strAnn (text : String)
  deriving DecidableEq, Repr

/-- Runtime values: a closed universe rich enough for the binder (variadic
positional parameters bind to a tuple, variadic keyword parameters to a
string-keyed dict). -/
inductive Val where
  | vint (n : Int)
  | vstr (s : String)
  | vnone
  | vtuple (elems : List Val)
  | vdict (entries : List (String × Val))

/-- One parameter of a Python signature: name, kind, annotation (`ann`, with
`TypeExpr.empty` for an untyped parameter) and default value (`none` encodes
`inspect.Parameter.empty`, i.e. no default). -/
structure Parameter where
  name : String
  kind : ParamKind
  ann : TypeExpr
  default : Option Val

/-- An `inspect.Signature`: the ordered parameter list. -/
structure Signature where
  params : List Parameter

/-- First-match lookup in an association list (Python `d[k]` / `k in d`). -/
def assocFind {κ α : Type} [DecidableEq κ] : List (κ × α) → κ → Option α
  | [], _ => none
  | (k, v) :: rest, n => if k = n then some v else assocFind rest n

/-- Replace the value at a key, or append the new entry (Python `d[k] = v`,
keeping dict insertion order). -/
def assocSet {κ α : Type} [DecidableEq κ] : List (κ × α) → κ → α → List (κ × α)
  | [], n, v => [(n, v)]
  | (k, v0) :: rest, n, v =>
    if k = n then (k, v) :: rest else (k, v0) :: assocSet rest n v

/-- Lookup with a default (Python `defaultdict` read access). -/
def assocFindD {κ α : Type} [DecidableEq κ] (l : List (κ × α)) (k : κ) (d : α) : α :=
  match assocFind l k with
  | some v => v
  | none => d

/-- Python `d.pop(k)`: the removed value and the remaining entries in order. -/
def assocPop {κ α : Type} [DecidableEq κ] : List (κ × α) → κ → Option (α × List (κ × α))
  | [], _ => none
  | (k, v) :: rest, n =>
    if k = n then some (v, rest)
    else
      match assocPop rest n with
      | none => none
      | some (v2, rest2) => some (v2, (k, v) :: rest2)

/-- Python `s.add(x)` on a set modelled as a duplicate-free list in insertion
order. -/
def insertIfNew {α : Type} [DecidableEq α] (l : List α) (x : α) : List α :=
  if x ∈ l then l else l ++ [x]

/-- Python `signature.parameters[name]` (as an `Option`). -/
def sigFind (sig : Signature) (n : String) : Option Parameter :=
  sig.params.find? (fun p => p.name == n)

/-- Python `name in signature.parameters`. -/
def hasParam (sig : Signature) (n : String) : Bool :=
  (sigFind sig n).isSome

/-- The `TypeError`s raised by CPython `Signature._bind`; in overtake these
surface wrapped as `IncompatibilityBind`. -/
inductive BindError where
  | missingRequired (name : String)
  | tooManyPositional
  | multipleValues (name : String)
  | unexpectedKeyword (name : String)
  | positionalOnlyAsKeyword (name : String)
  deriving DecidableEq, Repr

/-- Phase 1 of CPython `Signature._bind` (the `while True` loop): consume the
positional arguments against the leading parameters. `loose` is the `partial`
flag of `_bind` (true for `bind_partial`). Returns the positionally bound
arguments in binding order together with the parameters left over for the
keyword phase (`parameters_ex` chained with the unconsumed parameters). -/
def bindPhase1 (kwargs : List (String × Val)) (loose : Bool) :
    List Parameter → List Val → Except BindError (List (String × Val) × List Parameter)
  | [], [] => .ok ([], [])
  | p :: rest, [] =>
    if p.kind = .varPositional then .ok ([], rest)
    else if (assocFind kwargs p.name).isSome then
      if p.kind = .positionalOnly then .error (.positionalOnlyAsKeyword p.name)
      else .ok ([], p :: rest)
    else if p.kind = .varKeyword ∨ p.default.isSome then .ok ([], p :: rest)
    else if loose then .ok ([], p :: rest)
    else .error (.missingRequired p.name)
  | [], _ :: _ => .error .tooManyPositional
  | p :: rest, a :: args =>
    if p.kind = .varKeyword ∨ p.kind = .keywordOnly then .error .tooManyPositional
    else if p.kind = .varPositional then .ok ([(p.name, .vtuple (a :: args))], rest)
    else if (assocFind kwargs p.name).isSome ∧ p.kind ≠ .positionalOnly then
      .error (.multipleValues p.name)
    else
      match bindPhase1 kwargs loose rest args with
      | .error e => .error e
      | .ok (bound, rest2) => .ok ((p.name, a) :: bound, rest2)

/-- Phase 2 of CPython `Signature._bind`: walk the remaining parameters and
pop matching keyword arguments; leftover keyword arguments go to the
`**kwargs` parameter when one was seen, otherwise they are unexpected. -/
def bindPhase2 (loose : Bool) :
    List Parameter → List (String × Val) → List (String × Val) → Option Parameter →
    Except BindError (List (String × Val))
  | [], [], acc, _ => .ok acc
  | [], (k, v) :: kwrest, acc, kwparam =>
    match kwparam with
    | some p => .ok (acc ++ [(p.name, .vdict ((k, v) :: kwrest))])
    | none => .error (.unexpectedKeyword k)
  | p :: rest, kwargs, acc, kwparam =>
    if p.kind = .varKeyword then bindPhase2 loose rest kwargs acc (some p)
    else if p.kind = .varPositional then bindPhase2 loose rest kwargs acc kwparam
    else
      match assocPop kwargs p.name with
      | none =>
        if !loose && p.default.isNone then .error (.missingRequired p.name)
        else bindPhase2 loose rest kwargs acc kwparam
      | some (v, kwargs2) =>
        if p.kind = .positionalOnly then .error (.positionalOnlyAsKeyword p.name)
        else bindPhase2 loose rest kwargs2 (acc ++ [(p.name, v)]) kwparam

/-- CPython `Signature._bind`: `signature.bind(*args, **kwargs)` when `loose`
is false, `signature.bind_partial(*args, **kwargs)` when true. Produces the
`BoundArguments.arguments` mapping in insertion order (defaults are *not*
filled in; `bind` leaves that to `apply_defaults`). -/
def pythonBind (sig : Signature) (args : List Val) (kwargs : List (String × Val))
    (loose : Bool) : Except BindError (List (String × Val)) :=
  match bindPhase1 kwargs loose sig.params args with
  | .error e => .error e
  | .ok (bound, rest) => bindPhase2 loose rest kwargs bound none

/-- CPython `BoundArguments.apply_defaults`: re-list the bound arguments in
signature order, filling an unbound parameter from its default, an unbound
`*args` with the empty tuple and an unbound `**kwargs` with the empty dict. -/
def applyDefaultsInspect (sig : Signature) (bound : List (String × Val)) :
    List (String × Val) :=
  sig.params.filterMap fun p =>
    match assocFind bound p.name with
    | some v => some (p.name, v)
    | none =>
      match p.default with
      | some d => some (p.name, d)
      | none =>
        match p.kind with
        | .varPositional => some (p.name, .vtuple [])
        | .varKeyword => some (p.name, .vdict [])
        | _ => none

/-- The unpack test of `_find_arguments_to_check`:
`get_origin(annotation) == Unpack or (isinstance(annotation, str) and
"Unpack" in annotation)`. -/
def unpackLike : TypeExpr → Bool
  | .unpack _ => true
  | .strAnn s => (s.splitOn "Unpack").length != 1
  | _ => false

/-- Accumulator of `_find_arguments_to_check`: Python sets are modelled as
duplicate-free lists in insertion order, `defaultdict(set)` as association
lists (an absent key reads as the empty set). -/
structure AnalyzerState where
  variadicUnpackPresent : Bool
  allArguments : List String
  posArgNames : List (Nat × List String)
  posFoundTypes : List (Nat × List TypeExpr)
  kwFoundTypes : List (String × List TypeExpr)

def initAnalyzerState : AnalyzerState := ⟨false, [], [], [], []⟩

/-- Statement 1 of the loop body of `_find_arguments_to_check`:
`all_arguments.add(argument_name)`. -/
def analyzerStepAll (st : AnalyzerState) (p : Parameter) : AnalyzerState :=
  { st with allArguments := insertIfNew st.allArguments p.name }

/-- Statement 2 of the loop body: set `variadic_unpack_present` when the
annotation is unpack-like. -/
def analyzerStepUnpack (st : AnalyzerState) (p : Parameter) : AnalyzerState :=
  if unpackLike p.ann then { st with variadicUnpackPresent := true } else st

/-- Statement 3 of the loop body: positional bookkeeping — record the name
and the annotation at this position when the annotation is new there. -/
def analyzerStepPos (st : AnalyzerState) (pos : Nat) (p : Parameter) : AnalyzerState :=
  if (p.kind = .positionalOnly ∨ p.kind = .positionalOrKeyword) ∧
      p.ann ∉ assocFindD st.posFoundTypes pos [] then
    { st with
      posArgNames :=
        assocSet st.posArgNames pos
          (insertIfNew (assocFindD st.posArgNames pos []) p.name)
      posFoundTypes :=
        assocSet st.posFoundTypes pos
          (insertIfNew (assocFindD st.posFoundTypes pos []) p.ann) }
  else st

/-- Statement 4 of the loop body: keyword bookkeeping — record the
annotation under the name, guarded by the (already updated) positional
types at this index. -/
def analyzerStepKw (st : AnalyzerState) (pos : Nat) (p : Parameter) : AnalyzerState :=
  if (p.kind = .keywordOnly ∨ p.kind = .positionalOrKeyword ∨
      p.kind = .varPositional ∨ p.kind = .varKeyword) ∧
      p.ann ∉ assocFindD st.posFoundTypes pos [] then
    { st with
      kwFoundTypes :=
        assocSet st.kwFoundTypes p.name
          (insertIfNew (assocFindD st.kwFoundTypes p.name []) p.ann) }
  else st

/-- The body of the inner loop of `_find_arguments_to_check` for one
enumerated parameter `(pos, p)` of one candidate signature: the four
statements in source order. -/
def analyzerStep (st : AnalyzerState) (pos : Nat) (p : Parameter) : AnalyzerState :=
  analyzerStepKw (analyzerStepPos (analyzerStepUnpack (analyzerStepAll st p) p) pos p) pos p

/-- One candidate signature's pass of `_find_arguments_to_check`
(`for argument_pos, (argument_name, argument) in enumerate(...)`). -/
def analyzeSignature (st : AnalyzerState) (sig : Signature) : AnalyzerState :=
  sig.params.enum.foldl (fun st pp => analyzerStep st pp.1 pp.2) st

/-- `_find_arguments_to_check`: the set of argument names worth type-checking
at call time, as a list whose membership is the set membership (the Python
result is a set; duplicates are irrelevant). -/
def findArgumentsToCheck (sigs : List Signature) : List String :=
  let st := sigs.foldl analyzeSignature initAnalyzerState
  if st.variadicUnpackPresent then st.allArguments
  else
    (st.posFoundTypes.filter (fun pt => pt.2.length > 1)).flatMap
        (fun pt => assocFindD st.posArgNames pt.1 [])
      ++ (st.kwFoundTypes.filter (fun nt => nt.2.length > 1)).map (fun nt => nt.1)

/-- `has_defaults` of `LazyOverloadsInspection`: some parameter of the
overtaken function's own (stub) signature has a default. -/
def hasDefaultsOf (origSig : Signature) : Bool :=
  origSig.params.any (fun p => p.default.isSome)

/-- The version-specific hint of `raise_if_no_implementations` for
`sys.version_info < (3, 11)` (quotes of the source text omitted). -/
def oldVersionHelp : String :=
  "Did you use from typing import overload? If this is the case, use from typing_extensions import overload instead. \nOvertake cannot find the @overload from typing before Python 3.11. When you upgrade to Python 3.11, you will be able to use from typing import overload."

/-- The hint of `raise_if_no_implementations` on Python 3.11 and later. -/
def newVersionHelp : String :=
  "Did you forget to use @overload?"

/-- `sys.version_info < (3, 11)`: lexicographic comparison on (major, minor). -/
def versionBefore (v : Nat × Nat) (w : Nat × Nat) : Bool :=
  v.1 < w.1 || (v.1 == w.1 && v.2 < w.2)

/-- The message of the `OverloadsNotFoundError` raised by
`raise_if_no_implementations`. -/
def noOverloadsMessage (version : Nat × Nat) (name : String) : String :=
  "Overtake could not find the overloads for the function " ++ name ++ ". " ++
    (if versionBefore version (3, 11) then oldVersionHelp else newVersionHelp)

/-- Modelled from the spec: the tagged union of `incompatibility_reasons.py`
(not among the embedded source files): `BindFailure(message)` and
`TypeMismatch(parameter_name, declared_type, actual_value_repr)`. -/
inductive IncompatibilityReason where
  | bindFailure (e : BindError)
  | typeMismatch (parameterName : String) (declaredType : TypeExpr) (actualValue : Val)

/-- The compatibility-oracle boundary `check_type(value, hint, name, backend)`
with the backend fixed: `none` means compatible. -/
def Checker : Type :=
  Val → TypeExpr → String → Option IncompatibilityReason

/-- `get_origin(t) == tuple` over the `TypeExpr` grammar. -/
def isTupleOrigin : TypeExpr → Bool
  | .tupleOf _ => true
  | _ => false

/-- The effective check-type computation of `find_incompatibility`
(source lines 100-113): a variadic-positional parameter's hint becomes the
unpacked tuple type or `tuple[hint, ...]`; a variadic-keyword parameter's
hint becomes the unpacked type or `Dict[str, hint]`; all other kinds keep
their annotation. -/
def effectiveTypeHint (kind : ParamKind) (ann : TypeExpr) : TypeExpr :=
  match kind with
  | .varPositional =>
    match ann with
    | .unpack inner => if isTupleOrigin inner then inner else .tupleOf inner
    | t => .tupleOf t
  | .varKeyword =>
    match ann with
    | .unpack inner => inner
    | t => .dictOf (.prim "str") t
  | _ => ann

/-- One iteration of the check loop of `find_incompatibility` (source lines
94-124): skip an argument name that is not bound; look its parameter up in
the signature; compute the effective hint; skip when the hint is the empty
sentinel; otherwise consult the oracle. The `none` on a failed parameter
lookup marks the spot where CPython would raise `KeyError`; claim C10 shows
that lookup always succeeds for `bind`-produced bound arguments. -/
def checkArgument (checker : Checker) (sig : Signature) (bound : List (String × Val))
    (n : String) : Option IncompatibilityReason :=
  match assocFind bound n with
  | none => none
  | some v =>
    match sigFind sig n with
    | none => none
    | some p =>
      let hint := effectiveTypeHint p.kind p.ann
      if hint = .empty then none else checker v hint n

/-- The check loop of `find_incompatibility`: return the first per-argument
incompatibility, `none` when every argument passes. -/
def checkFold (check : String → Option IncompatibilityReason) :
    List String → Option IncompatibilityReason
  | [] => none
  | n :: rest =>
    match check n with
    | some r => some r
    | none => checkFold check rest

/-- Python dict union `acc |= d` (`operator.ior`): values of `d` win, keys of
`acc` keep their position, new keys of `d` are appended in order. -/
def dictUnion (d1 d2 : List (String × Val)) : List (String × Val) :=
  d1.map (fun kv => (kv.1, assocFindD d2 kv.1 kv.2))
    ++ d2.filter (fun kv => (assocFind d1 kv.1).isNone)

/-- `OvertakenFunctionRegistry.apply_defaults` (source lines 128-151):
partial-bind the raw call against the stub signature `origSig`, back-fill the
stub defaults, then re-derive the positional and keyword argument lists,
classifying each stub parameter against the candidate signature `sig`. On a
`TypeError` from the partial bind the raw `(args, kwargs)` are returned
unchanged. The fall-through branches for a variadic parameter bound to a
non-tuple/non-dict value are unreachable for `bind`-produced arguments. -/
def applyDefaultsOvertake (origSig : Signature) (args : List Val)
    (kwargs : List (String × Val)) (sig : Signature) :
    List Val × List (String × Val) :=
  match pythonBind origSig args kwargs true with
  | .error _ => (args, kwargs)
  | .ok bound0 =>
    let bound := applyDefaultsInspect origSig bound0
    let argsWithDefaults :=
      (origSig.params.filter fun p =>
        (assocFind bound p.name).isSome &&
          (p.kind == .positionalOnly || p.kind == .varPositional ||
            (p.kind == .positionalOrKeyword && hasParam sig p.name))).flatMap fun p =>
        match p.kind, assocFind bound p.name with
        | .varPositional, some (.vtuple vs) => vs
        | _, some v => [v]
        | _, none => []
    let kwargsWithDefaults :=
      (origSig.params.filter fun p =>
        (assocFind bound p.name).isSome &&
          (p.kind == .keywordOnly || p.kind == .varKeyword ||
            (p.kind == .positionalOrKeyword && !hasParam sig p.name))).foldl
        (fun acc p =>
          match p.kind, assocFind bound p.name with
          | .varKeyword, some (.vdict d) => dictUnion acc d
          | _, some v => dictUnion acc [(p.name, v)]
          | _, none => acc) []
    (argsWithDefaults, kwargsWithDefaults)

/-- `OvertakenFunctionRegistry.find_incompatibility` (source lines 81-126):
apply the stub defaults when the stub declares any, bind against the
candidate signature (a `TypeError` becomes `IncompatibilityBind`), then run
the check loop over `toCheck` (the registry's `arguments_to_check`). -/
def findIncompatibility (checker : Checker) (hasDefs : Bool) (origSig : Signature)
    (toCheck : List String) (sig : Signature) (args : List Val)
    (kwargs : List (String × Val)) : Option IncompatibilityReason :=
  let ak := if hasDefs then applyDefaultsOvertake origSig args kwargs sig else (args, kwargs)
  match pythonBind sig ak.1 ak.2 false with
  | .error e => some (.bindFailure e)
  | .ok bound => checkFold (checkArgument checker sig bound) toCheck

/-- One registered overload: its implementation (abstracted as a function of
the positional and keyword argument lists it is invoked with) and its
signature. -/
structure Candidate where
  fn : List Val → List (String × Val) → Val
  sig : Signature

/-- The candidate loop of `OvertakenFunctionRegistry.__call__` (source lines
60-71) with the accumulated `incompatibilities` list: the first candidate
whose `find_incompatibility` is `None` is invoked with the raw call
arguments; when every candidate fails, the ordered list of per-candidate
`(signature, reason)` pairs is raised (`raise_full_incompatibility`). -/
def callLoop (checker : Checker) (hasDefs : Bool) (origSig : Signature)
    (toCheck : List String) (args : List Val) (kwargs : List (String × Val)) :
    List Candidate → List (Signature × IncompatibilityReason) →
    Except (List (Signature × IncompatibilityReason)) Val
  | [], acc => .error acc
  | c :: rest, acc =>
    match findIncompatibility checker hasDefs origSig toCheck c.sig args kwargs with
    | none => .ok (c.fn args kwargs)
    | some r => callLoop checker hasDefs origSig toCheck args kwargs rest (acc ++ [(c.sig, r)])

/-- `OvertakenFunctionRegistry.__call__` for an already-inspected registry. -/
def registryCall (checker : Checker) (hasDefs : Bool) (origSig : Signature)
    (toCheck : List String) (impls : List Candidate) (args : List Val)
    (kwargs : List (String × Val)) :
    Except (List (Signature × IncompatibilityReason)) Val :=
  callLoop checker hasDefs origSig toCheck args kwargs impls []

/-- The two user-visible error kinds: `OverloadsNotFoundError` (from
`raise_if_no_implementations`) and `CompatibleOverloadNotFoundError` (from
`raise_full_incompatibility`, carrying the ordered per-candidate reasons). -/
inductive DispatchError where
  | overloadsNotFound (message : String)
  | compatibleOverloadNotFound (incompatibilities : List (Signature × IncompatibilityReason))

/-- The full call path of an overtaken function: the first call runs
`LazyOverloadsInspection` (`find_implementations` /
`raise_if_no_implementations`, `has_defaults`, `_find_arguments_to_check`)
and then `OvertakenFunctionRegistry.__call__`. `overloads` is what
`typing_extensions.get_overloads` returns for the function, in declaration
order. -/
def overtakeCall (version : Nat × Nat) (name : String) (checker : Checker)
    (overloads : List Candidate) (origSig : Signature)
    (args : List Val) (kwargs : List (String × Val)) : Except DispatchError Val :=
  match overloads with
  | [] => .error (.overloadsNotFound (noOverloadsMessage version name))
  | _ =>
    match registryCall checker (hasDefaultsOf origSig) origSig
        (findArgumentsToCheck (overloads.map Candidate.sig)) overloads args kwargs with
    | .ok v => .ok v
    | .error l => .error (.compatibleOverloadNotFound l)

/-! ## Spec-side reference definitions

The definitions below are not translations of the source; they follow the
words of the spec and are compared against the source-derived definitions
above (the naive resolver of the pruning property, and the declarative
distinct-type bookkeeping of the analyzer's contract). -/

/-- Definition following the spec words for the naive reference resolver of
the pruning property: identical binding and defaults handling, but every
*bound annotated* parameter is type-checked, with the same effective-type
rules as the resolver. -/
def naiveCheckArgument (checker : Checker) (sig : Signature)
    (bound : List (String × Val)) (n : String) : Option IncompatibilityReason :=
  match assocFind bound n with
  | none => none
  | some v =>
    match sigFind sig n with
    | none => none
    | some p =>
      if p.ann = .empty then none
      else
        let hint := effectiveTypeHint p.kind p.ann
        if hint = .empty then none else checker v hint n

/-- Definition following the spec words: the per-candidate judgement of the
naive check-everything reference resolver. -/
def naiveFindIncompatibility (checker : Checker) (hasDefs : Bool)
    (origSig : Signature) (sig : Signature) (args : List Val)
    (kwargs : List (String × Val)) : Option IncompatibilityReason :=
  let ak := if hasDefs then applyDefaultsOvertake origSig args kwargs sig else (args, kwargs)
  match pythonBind sig ak.1 ak.2 false with
  | .error e => some (.bindFailure e)
  | .ok bound => checkFold (naiveCheckArgument checker sig bound) (bound.map Prod.fst)

/-- The resolution outcome of a per-candidate judgement: the index of the
first accepted candidate signature, `none` on exhaustion. -/
def firstMatchIndex (f : Signature → Option IncompatibilityReason) :
    List Signature → Option Nat
  | [] => none
  | s :: rest =>
    if (f s).isNone then some 0 else (firstMatchIndex f rest).map (fun i => i + 1)

/-- Outcome of the pruned resolver (the source resolver, checking only
`_find_arguments_to_check`). -/
def prunedOutcome (checker : Checker) (hasDefs : Bool) (origSig : Signature)
    (sigs : List Signature) (args : List Val) (kwargs : List (String × Val)) :
    Option Nat :=
  firstMatchIndex
    (fun s => findIncompatibility checker hasDefs origSig (findArgumentsToCheck sigs) s args kwargs)
    sigs

/-- Outcome of the naive check-everything reference resolver. -/
def naiveOutcome (checker : Checker) (hasDefs : Bool) (origSig : Signature)
    (sigs : List Signature) (args : List Val) (kwargs : List (String × Val)) :
    Option Nat :=
  firstMatchIndex
    (fun s => naiveFindIncompatibility checker hasDefs origSig s args kwargs)
    sigs

/-- Positional-eligible kinds of the analyzer's positional bookkeeping. -/
def posEligible (k : ParamKind) : Bool :=
  k == .positionalOnly || k == .positionalOrKeyword

/-- Keyword-eligible and variadic kinds of the analyzer's name bookkeeping. -/
def kwEligible (k : ParamKind) : Bool :=
  k == .keywordOnly || k == .positionalOrKeyword ||
    k == .varPositional || k == .varKeyword

/-- All declared types observed at a position across the candidates, for
positional-eligible kinds (the spec's distinct-type bookkeeping by
position). -/
def posTypesAt (sigs : List Signature) (pos : Nat) : List TypeExpr :=
  sigs.flatMap fun sig =>
    sig.params.enum.filterMap fun ip =>
      if ip.1 == pos && posEligible ip.2.kind then some ip.2.ann else none

/-- All declared types observed at a name across the candidates, for
keyword-eligible and variadic kinds (the spec's distinct-type bookkeeping by
name). -/
def kwTypesAt (sigs : List Signature) (n : String) : List TypeExpr :=
  sigs.flatMap fun sig =>
    sig.params.filterMap fun p =>
      if p.name == n && kwEligible p.kind then some p.ann else none

/-- A concrete structural oracle used for witnesses: an int value satisfies
the `int` primitive, a string value the `str` primitive, everything else is
reported as a mismatch. -/
def basicChecker : Checker := fun v t n =>
  let ok :=
    match v, t with
    | .vint _, .prim s => s == "int"
    | .vstr _, .prim s => s == "str"
    | _, _ => false
  if ok then none else some (.typeMismatch n t v)

/-- An oracle that rejects every submitted query; a parameter is accepted
under it exactly when it is never submitted to the oracle. -/
def rejectAllChecker : Checker := fun v t n => some (.typeMismatch n t v)

/-! ## Concrete fixtures for witnesses and counterexamples -/

/-- Candidate signature `f(x: int)`. -/
def exSigX : Signature := ⟨[⟨"x", .positionalOrKeyword, .prim "int", none⟩]⟩

/-- Stub signature `f(x)` (untyped, no default). -/
def exStubX : Signature := ⟨[⟨"x", .positionalOrKeyword, .empty, none⟩]⟩

/-- Candidate signature `f(y: int)`. -/
def exSigY : Signature := ⟨[⟨"y", .positionalOrKeyword, .prim "int", none⟩]⟩

/-- Candidate signature `f(x: str)`. -/
def exSigXs : Signature := ⟨[⟨"x", .positionalOrKeyword, .prim "str", none⟩]⟩

/-- Candidate signature `f(*args: int)`. -/
def exSigVarInt : Signature := ⟨[⟨"args", .varPositional, .prim "int", none⟩]⟩

/-- Candidate signature `f(*args)` (untyped variadic). -/
def exSigVarEmpty : Signature := ⟨[⟨"args", .varPositional, .empty, none⟩]⟩

/-- Stub signature `f(my_var, my_second=4)`: the second parameter carries a
stub default. -/
def exStubDefaults : Signature :=
  ⟨[⟨"my_var", .positionalOrKeyword, .empty, none⟩,
    ⟨"my_second", .positionalOrKeyword, .empty, some (.vint 4)⟩]⟩

/-- Candidate signature `f(my_var: int, my_second: int)`: both parameters
required. -/
def exSigIntInt : Signature :=
  ⟨[⟨"my_var", .positionalOrKeyword, .prim "int", none⟩,
    ⟨"my_second", .positionalOrKeyword, .prim "int", none⟩]⟩

/-- A candidate for `exSigIntInt` whose implementation records the argument
lists it was invoked with. -/
def exCandRecord : Candidate :=
  ⟨fun a k => .vtuple [.vtuple a, .vdict k], exSigIntInt⟩

/-- Candidate signature `f(*args: Unpack[tuple[int, ...]])`. -/
def exSigUnpack : Signature :=
  ⟨[⟨"args", .varPositional, .unpack (.tupleOf (.prim "int")), none⟩]⟩

/-! ## Claim theorems -/

/-- C9: when candidate discovery yields an empty list, the call raises the
no-candidates error `OverloadsNotFoundError` (never a value, never the
exhaustion error), and its message branches on the runtime version between
the unsupported-mechanism hint (before Python 3.11) and the
forgotten-`@overload` hint; the two hints are genuinely different texts. -/
theorem claim_C9_no_candidates (version : Nat × Nat) (name : String) (checker : Checker)
    (origSig : Signature) (args : List Val) (kwargs : List (String × Val)) :
    overtakeCall version name checker [] origSig args kwargs
      = .error (.overloadsNotFound
          ("Overtake could not find the overloads for the function " ++ name ++ ". " ++
            (if versionBefore version (3, 11) then oldVersionHelp else newVersionHelp)))
    ∧ oldVersionHelp ≠ newVersionHelp := by
  refine ⟨rfl, ?_⟩
  decide

/-- C5 counterexample: with candidates `f(*args: int)` and `f(*args)`, the
name `args` is relevant; on the call `f(5)` the second candidate binds
`args = (5,)` with an *absent* annotation, yet the oracle is consulted (with
the wrapped hint `tuple[empty, ...]`) and its verdict decides the outcome —
under a rejecting oracle the parameter is reported incompatible instead of
being treated as automatically compatible. -/
theorem claim_C5_counterexample :
    findArgumentsToCheck [exSigVarInt, exSigVarEmpty] = ["args"]
    ∧ findIncompatibility rejectAllChecker false exStubX ["args"] exSigVarEmpty [.vint 5] []
        = some (.typeMismatch "args" (.tupleOf .empty) (.vtuple [.vint 5])) :=
  ⟨rfl, rfl⟩

/-- C5 (amended): a bound parameter whose kind is *not* variadic-positional
and *not* variadic-keyword and whose annotation is absent is never submitted
to the oracle and is treated as automatically compatible (the per-argument
check returns `none` for every oracle); for a variadic parameter with an
absent annotation the source wraps the empty sentinel first, so the guard
does not fire and the oracle is consulted. -/
theorem claim_C5_amended (checker : Checker) (sig : Signature)
    (bound : List (String × Val)) (n : String) (p : Parameter)
    (hp : sigFind sig n = some p)
    (hkp : p.kind ≠ .varPositional) (hkk : p.kind ≠ .varKeyword)
    (ha : p.ann = .empty) :
    checkArgument checker sig bound n = none := by
  unfold checkArgument
  cases hb : assocFind bound n with
  | none => rfl
  | some v =>
    rw [hp]
    have hhint : effectiveTypeHint p.kind p.ann = .empty := by
      cases hk : p.kind <;> simp_all [effectiveTypeHint]
    simp [hhint]

/-- Witness for C5 (amended): a concrete untyped non-variadic bound parameter
passes the check even under the oracle that rejects everything. -/
theorem claim_C5_witness :
    checkArgument rejectAllChecker exStubX [("x", .vint 1)] "x" = none :=
  claim_C5_amended rejectAllChecker exStubX [("x", .vint 1)] "x"
    ⟨"x", .positionalOrKeyword, .empty, none⟩ rfl (by decide) (by decide) rfl

/-- C8: when the raw call cannot be partially bound against the stub
signature, `apply_defaults` swallows the `TypeError` and returns the raw
arguments unchanged, and `find_incompatibility` with defaults enabled then
behaves exactly as if the defaults step did not exist — the raw arguments
are bound against the candidate signature. -/
theorem claim_C8_soft_fail (origSig : Signature) (args : List Val)
    (kwargs : List (String × Val)) (e : BindError)
    (hfail : pythonBind origSig args kwargs true = .error e) :
    (∀ sig, applyDefaultsOvertake origSig args kwargs sig = (args, kwargs))
    ∧ (∀ checker toCheck sig,
        findIncompatibility checker true origSig toCheck sig args kwargs
          = findIncompatibility checker false origSig toCheck sig args kwargs) := by
  have h1 : ∀ sig, applyDefaultsOvertake origSig args kwargs sig = (args, kwargs) := by
    intro sig
    unfold applyDefaultsOvertake
    rw [hfail]
  refine ⟨h1, ?_⟩
  intro checker toCheck sig
  simp [findIncompatibility, h1 sig]

/-- Witness for C8: the call `f(zz=1)` cannot be partially bound against the
stub `f(x)` (unexpected keyword), and the defaults step leaves the raw
arguments untouched. -/
theorem claim_C8_witness :
    applyDefaultsOvertake exStubX [] [("zz", .vint 1)] exSigX = ([], [("zz", .vint 1)]) :=
  (claim_C8_soft_fail exStubX [] [("zz", .vint 1)] (.unexpectedKeyword "zz") rfl).1 exSigX

/-- C4 counterexample: stub `f(my_var, my_second=4)` and single candidate
`f(my_var: int, my_second: int)`. On the call `f(3)` the defaults-augmented
binding is `args = [3, 4]` (the stub default back-filled), the candidate is
selected, but the implementation is invoked with the *raw* argument list
`[3]`: the recording implementation observes `([3], {})`, not `([3, 4], {})`,
so a parameter supplied only by a stub default is not passed to the chosen
candidate. -/
theorem claim_C4_counterexample :
    (applyDefaultsOvertake exStubDefaults [.vint 3] [] exSigIntInt).1 = [.vint 3, .vint 4]
    ∧ registryCall basicChecker true exStubDefaults (findArgumentsToCheck [exSigIntInt])
        [exCandRecord] [.vint 3] []
        = .ok (.vtuple [.vtuple [.vint 3], .vdict []])
    ∧ (Val.vtuple [.vtuple [.vint 3], .vdict []]
        ≠ .vtuple [.vtuple [.vint 3, .vint 4], .vdict []]) := by
  refine ⟨rfl, rfl, ?_⟩
  intro h
  simp at h

/-- C4 (amended): when a candidate is accepted (its `find_incompatibility`,
computed over the defaults-augmented binding, is `None`), its implementation
is invoked with the *raw* caller-supplied positional and keyword argument
lists; the defaults-augmented lists are used only for selection, so a
parameter supplied only by a stub default is not passed to the candidate. -/
theorem claim_C4_amended (checker : Checker) (origSig : Signature)
    (toCheck : List String) (c : Candidate) (rest : List Candidate)
    (args : List Val) (kwargs : List (String × Val))
    (hc : findIncompatibility checker true origSig toCheck c.sig args kwargs = none) :
    registryCall checker true origSig toCheck (c :: rest) args kwargs
      = .ok (c.fn args kwargs) := by
  unfold registryCall callLoop
  rw [hc]

/-- Witness for C4 (amended): the concrete C4 scenario run through the
amended statement — the chosen candidate receives the raw `[3]`. -/
theorem claim_C4_witness :
    registryCall basicChecker true exStubDefaults [] [exCandRecord] [.vint 3] []
      = .ok (.vtuple [.vtuple [.vint 3], .vdict []]) :=
  claim_C4_amended basicChecker exStubDefaults [] exCandRecord [] [.vint 3] [] rfl

/-- C1 counterexample: a single candidate `f(x: int)`. On the call
`f("a")` the analyzer finds nothing to check (only one declared type at the
position), so the pruned resolver selects candidate 0, while the naive
check-everything reference resolver rejects it (`"a"` is not an `int`) and
reports exhaustion: the resolution outcomes differ. -/
theorem claim_C1_counterexample :
    prunedOutcome basicChecker false exStubX [exSigX] [.vstr "a"] [] = some 0
    ∧ naiveOutcome basicChecker false exStubX [exSigX] [.vstr "a"] [] = none
    ∧ prunedOutcome basicChecker false exStubX [exSigX] [.vstr "a"] []
        ≠ naiveOutcome basicChecker false exStubX [exSigX] [.vstr "a"] [] := by
  refine ⟨rfl, rfl, ?_⟩
  intro h
  rw [show prunedOutcome basicChecker false exStubX [exSigX] [.vstr "a"] [] = some 0 from rfl,
    show naiveOutcome basicChecker false exStubX [exSigX] [.vstr "a"] [] = none from rfl] at h
  exact Option.noConfusion h

/-! ## Lemmas about the candidate loop -/

/-- The accumulator of the candidate loop only prefixes the final
incompatibility report: a success is unaffected by it. -/
theorem callLoop_acc (checker : Checker) (hasDefs : Bool) (origSig : Signature)
    (toCheck : List String) (args : List Val) (kwargs : List (String × Val))
    (impls : List Candidate) (acc : List (Signature × IncompatibilityReason)) :
    callLoop checker hasDefs origSig toCheck args kwargs impls acc
      = match callLoop checker hasDefs origSig toCheck args kwargs impls [] with
        | .ok v => .ok v
        | .error l => .error (acc ++ l) := by
  induction impls generalizing acc with
  | nil => simp [callLoop]
  | cons c rest ih =>
    cases h : findIncompatibility checker hasDefs origSig toCheck c.sig args kwargs with
    | none => simp [callLoop, h]
    | some r =>
      simp only [callLoop, h, List.nil_append]
      rw [ih (acc ++ [(c.sig, r)]), ih [(c.sig, r)]]
      cases callLoop checker hasDefs origSig toCheck args kwargs rest [] <;> simp

/-- C2: the resolver walks the candidates in declaration order and invokes
the implementation of the *first* candidate whose bind-and-check judgement
succeeds, returning its result applied to the call arguments; any
later-declared candidate that would also match is never reached (no scoring,
no most-specific-match selection). -/
theorem claim_C2_declaration_order (checker : Checker) (hasDefs : Bool)
    (origSig : Signature) (toCheck : List String) (impls : List Candidate)
    (args : List Val) (kwargs : List (String × Val)) (i : Nat) (c : Candidate)
    (hget : impls[i]? = some c)
    (hc : findIncompatibility checker hasDefs origSig toCheck c.sig args kwargs = none)
    (hprev : ∀ j, j < i → ∀ cj, impls[j]? = some cj →
        findIncompatibility checker hasDefs origSig toCheck cj.sig args kwargs ≠ none) :
    registryCall checker hasDefs origSig toCheck impls args kwargs
      = .ok (c.fn args kwargs) := by
  unfold registryCall
  induction impls generalizing i with
  | nil => simp at hget
  | cons hd tl ih =>
    cases i with
    | zero =>
      rw [List.getElem?_cons_zero] at hget
      injection hget with hget
      subst hget
      unfold callLoop
      rw [hc]
    | succ n =>
      have h0 := hprev 0 (Nat.succ_pos n) hd (by rw [List.getElem?_cons_zero])
      cases hh : findIncompatibility checker hasDefs origSig toCheck hd.sig args kwargs with
      | none => exact absurd hh h0
      | some r =>
        simp only [callLoop, hh, List.nil_append]
        rw [callLoop_acc]
        rw [ih n (by rw [List.getElem?_cons_succ] at hget; exact hget)
          (by intro j hj cj hcj
              exact hprev (j + 1) (Nat.succ_lt_succ hj) cj
                (by rw [List.getElem?_cons_succ]; exact hcj))]

/-- C3: when every candidate fails its bind-or-check step the call raises the
aggregate incompatibility carrying exactly one reason per candidate in
declaration order (never a partial list); and a single candidate's failure
never propagates — it is recorded and resolution continues with the rest of
the candidates, whose outcome (success value or the remaining report) is
preserved. -/
theorem claim_C3_exhaustion_and_recovery (checker : Checker) (hasDefs : Bool)
    (origSig : Signature) (toCheck : List String) (impls : List Candidate)
    (args : List Val) (kwargs : List (String × Val))
    (hall : ∀ c ∈ impls,
      findIncompatibility checker hasDefs origSig toCheck c.sig args kwargs ≠ none) :
    registryCall checker hasDefs origSig toCheck impls args kwargs
      = .error (impls.map fun c => (c.sig,
          (findIncompatibility checker hasDefs origSig toCheck c.sig args kwargs).getD
            (.bindFailure .tooManyPositional)))
    ∧ ∀ (c : Candidate) (r : IncompatibilityReason) (impls2 : List Candidate),
        findIncompatibility checker hasDefs origSig toCheck c.sig args kwargs = some r →
        (∀ v, registryCall checker hasDefs origSig toCheck impls2 args kwargs = .ok v →
            registryCall checker hasDefs origSig toCheck (c :: impls2) args kwargs = .ok v)
        ∧ (∀ l, registryCall checker hasDefs origSig toCheck impls2 args kwargs = .error l →
            registryCall checker hasDefs origSig toCheck (c :: impls2) args kwargs
              = .error ((c.sig, r) :: l)) := by
  constructor
  · induction impls with
    | nil => rfl
    | cons hd tl ih =>
      have h0 := hall hd (by simp)
      cases hh : findIncompatibility checker hasDefs origSig toCheck hd.sig args kwargs with
      | none => exact absurd hh h0
      | some r =>
        unfold registryCall
        simp only [callLoop, hh, List.nil_append]
        rw [callLoop_acc]
        have htl := ih (fun c hc => hall c (List.mem_cons_of_mem hd hc))
        unfold registryCall at htl
        rw [htl]
        simp [hh]
  · intro c r impls2 hc
    have hstep : registryCall checker hasDefs origSig toCheck (c :: impls2) args kwargs
        = match registryCall checker hasDefs origSig toCheck impls2 args kwargs with
          | .ok v => .ok v
          | .error l => .error ((c.sig, r) :: l) := by
      unfold registryCall
      simp only [callLoop, hc, List.nil_append]
      rw [callLoop_acc]
      cases callLoop checker hasDefs origSig toCheck args kwargs impls2 [] <;> simp
    constructor
    · intro v hv
      rw [hstep, hv]
    · intro l hl
      rw [hstep, hl]

/-- Witness for C2: two overlapping candidates that both accept the call
`f(3)`; the earliest declared one is invoked and its result observed. -/
theorem claim_C2_witness :
    registryCall basicChecker false exStubX (findArgumentsToCheck [exSigX, exSigX])
      [⟨fun _ _ => .vint 1, exSigX⟩, ⟨fun _ _ => .vint 2, exSigX⟩] [.vint 3] []
      = .ok (.vint 1) :=
  claim_C2_declaration_order basicChecker false exStubX
    (findArgumentsToCheck [exSigX, exSigX])
    [⟨fun _ _ => .vint 1, exSigX⟩, ⟨fun _ _ => .vint 2, exSigX⟩] [.vint 3] [] 0
    ⟨fun _ _ => .vint 1, exSigX⟩ rfl rfl (by intro j hj; omega)

/-- Witness for C3: a single candidate `f(x: int)` rejecting the call
`f("a")`; the raised report carries exactly its reason. -/
theorem claim_C3_witness :
    registryCall basicChecker false exStubX ["x"] [⟨fun _ _ => .vnone, exSigX⟩]
      [.vstr "a"] []
      = .error [(exSigX, .typeMismatch "x" (.prim "int") (.vstr "a"))] :=
  (claim_C3_exhaustion_and_recovery basicChecker false exStubX ["x"]
    [⟨fun _ _ => .vnone, exSigX⟩] [.vstr "a"] []
    (by
      intro c hc
      rw [List.mem_singleton] at hc
      subst hc
      intro h
      rw [show findIncompatibility basicChecker false exStubX ["x"] exSigX [.vstr "a"] []
          = some (.typeMismatch "x" (.prim "int") (.vstr "a")) from rfl] at h
      exact Option.noConfusion h)).1

/-! ## Lemmas about the binder: bound names come from the signature -/

/-- A successful association-list lookup exhibits a member. -/
theorem assocFind_mem {κ α : Type} [DecidableEq κ] {l : List (κ × α)} {k : κ} {v : α}
    (h : assocFind l k = some v) : (k, v) ∈ l := by
  induction l with
  | nil => simp [assocFind] at h
  | cons hd tl ih =>
    obtain ⟨k1, v1⟩ := hd
    unfold assocFind at h
    by_cases hk : k1 = k
    · rw [if_pos hk] at h
      injection h with h
      subst hk
      subst h
      exact List.mem_cons_self _ _
    · rw [if_neg hk] at h
      exact List.mem_cons_of_mem _ (ih h)

/-- Phase 1 of the binder only binds names of the supplied parameters, and
only hands parameters from the supplied list over to phase 2. -/
theorem bindPhase1_names (kwargs : List (String × Val)) (loose : Bool) :
    ∀ (args : List Val) (ps : List Parameter) bound rest,
    bindPhase1 kwargs loose ps args = .ok (bound, rest) →
    (∀ kv ∈ bound, ∃ p ∈ ps, p.name = kv.1) ∧ (∀ p ∈ rest, p ∈ ps) := by
  intro args
  induction args with
  | nil =>
    intro ps bound rest h
    cases ps with
    | nil =>
      simp only [bindPhase1, Except.ok.injEq, Prod.mk.injEq] at h
      obtain ⟨h1, h2⟩ := h
      subst h1; subst h2
      exact ⟨by simp, by simp⟩
    | cons p rest2 =>
      simp only [bindPhase1] at h
      split at h
      · simp only [Except.ok.injEq, Prod.mk.injEq] at h
        obtain ⟨h1, h2⟩ := h
        subst h1; subst h2
        exact ⟨by simp, fun q hq => List.mem_cons_of_mem _ hq⟩
      · split at h
        · split at h
          · exact absurd h (by simp)
          · simp only [Except.ok.injEq, Prod.mk.injEq] at h
            obtain ⟨h1, h2⟩ := h
            subst h1; subst h2
            exact ⟨by simp, fun q hq => hq⟩
        · split at h
          · simp only [Except.ok.injEq, Prod.mk.injEq] at h
            obtain ⟨h1, h2⟩ := h
            subst h1; subst h2
            exact ⟨by simp, fun q hq => hq⟩
          · split at h
            · simp only [Except.ok.injEq, Prod.mk.injEq] at h
              obtain ⟨h1, h2⟩ := h
              subst h1; subst h2
              exact ⟨by simp, fun q hq => hq⟩
            · exact absurd h (by simp)
  | cons a args ih =>
    intro ps bound rest h
    cases ps with
    | nil => exact absurd h (by simp [bindPhase1])
    | cons p rest2 =>
      simp only [bindPhase1] at h
      split at h
      · exact absurd h (by simp)
      · split at h
        · simp only [Except.ok.injEq, Prod.mk.injEq] at h
          obtain ⟨h1, h2⟩ := h
          subst h1; subst h2
          refine ⟨?_, fun q hq => List.mem_cons_of_mem _ hq⟩
          intro kv hkv
          rw [List.mem_singleton] at hkv
          subst hkv
          exact ⟨p, List.mem_cons_self _ _, rfl⟩
        · split at h
          · exact absurd h (by simp)
          · cases hrec : bindPhase1 kwargs loose rest2 args with
            | error e => rw [hrec] at h; exact absurd h (by simp)
            | ok pr =>
              obtain ⟨bound2, rest3⟩ := pr
              rw [hrec] at h
              simp only [Except.ok.injEq, Prod.mk.injEq] at h
              obtain ⟨h1, h2⟩ := h
              subst h1; subst h2
              obtain ⟨hb2, hr2⟩ := ih rest2 bound2 rest3 hrec
              refine ⟨?_, fun q hq => List.mem_cons_of_mem _ (hr2 q hq)⟩
              intro kv hkv
              rcases List.mem_cons.mp hkv with hkv | hkv
              · subst hkv
                exact ⟨p, List.mem_cons_self _ _, rfl⟩
              · obtain ⟨q, hq, hqn⟩ := hb2 kv hkv
                exact ⟨q, List.mem_cons_of_mem _ hq, hqn⟩

/-- Phase 2 of the binder only adds names of parameters from the supplied
parameter list (or of the memorised `**kwargs` parameter) to the bound
arguments. -/
theorem bindPhase2_names (loose : Bool) :
    ∀ (ps : List Parameter) (kwargs acc : List (String × Val))
      (kwparam : Option Parameter) (bound : List (String × Val))
      (allP : List Parameter),
    (∀ p ∈ ps, p ∈ allP) →
    (∀ p, kwparam = some p → p ∈ allP) →
    (∀ kv ∈ acc, ∃ p ∈ allP, p.name = kv.1) →
    bindPhase2 loose ps kwargs acc kwparam = .ok bound →
    ∀ kv ∈ bound, ∃ p ∈ allP, p.name = kv.1 := by
  intro ps
  induction ps with
  | nil =>
    intro kwargs acc kwparam bound allP _ hkw hacc h
    cases kwargs with
    | nil =>
      simp only [bindPhase2, Except.ok.injEq] at h
      subst h
      exact hacc
    | cons kv0 kwrest =>
      obtain ⟨k, v⟩ := kv0
      cases hkp : kwparam with
      | none =>
        rw [hkp] at h
        exact absurd h (by simp [bindPhase2])
      | some p =>
        rw [hkp] at h
        simp only [bindPhase2, Except.ok.injEq] at h
        subst h
        intro kv hkv
        rcases List.mem_append.mp hkv with hkv | hkv
        · exact hacc kv hkv
        · rw [List.mem_singleton] at hkv
          subst hkv
          exact ⟨p, hkw p hkp, rfl⟩
  | cons p ps2 ih =>
    intro kwargs acc kwparam bound allP hps hkw hacc h
    have hpall : p ∈ allP := hps p (List.mem_cons_self _ _)
    have hps2 : ∀ q ∈ ps2, q ∈ allP := fun q hq => hps q (List.mem_cons_of_mem _ hq)
    simp only [bindPhase2] at h
    by_cases h1 : p.kind = .varKeyword
    · rw [if_pos h1] at h
      exact ih kwargs acc (some p) bound allP hps2
        (fun q hq => by injection hq with hq; subst hq; exact hpall) hacc h
    · rw [if_neg h1] at h
      by_cases h2 : p.kind = .varPositional
      · rw [if_pos h2] at h
        exact ih kwargs acc kwparam bound allP hps2 hkw hacc h
      · rw [if_neg h2] at h
        cases hpop : assocPop kwargs p.name with
        | none =>
          simp only [hpop] at h
          by_cases h3 : (!loose && p.default.isNone) = true
          · rw [if_pos h3] at h
            exact absurd h (by simp)
          · rw [if_neg h3] at h
            exact ih kwargs acc kwparam bound allP hps2 hkw hacc h
        | some pr =>
          obtain ⟨v, kwargs2⟩ := pr
          simp only [hpop] at h
          by_cases h3 : p.kind = .positionalOnly
          · rw [if_pos h3] at h
            exact absurd h (by simp)
          · rw [if_neg h3] at h
            refine ih kwargs2 (acc ++ [(p.name, v)]) kwparam bound allP hps2 hkw ?_ h
            intro kv hkv
            rcases List.mem_append.mp hkv with hkv | hkv
            · exact hacc kv hkv
            · rw [List.mem_singleton] at hkv
              subst hkv
              exact ⟨p, hpall, rfl⟩

/-- Every name bound by `Signature.bind` is the name of one of the
signature's parameters. -/
theorem pythonBind_names (sig : Signature) (args : List Val)
    (kwargs : List (String × Val)) (loose : Bool) (bound : List (String × Val))
    (h : pythonBind sig args kwargs loose = .ok bound) :
    ∀ kv ∈ bound, ∃ p ∈ sig.params, p.name = kv.1 := by
  unfold pythonBind at h
  cases h1 : bindPhase1 kwargs loose sig.params args with
  | error e => rw [h1] at h; exact absurd h (by simp)
  | ok pr =>
    obtain ⟨b1, rest⟩ := pr
    rw [h1] at h
    obtain ⟨hb1, hrest⟩ := bindPhase1_names kwargs loose args sig.params b1 rest h1
    exact bindPhase2_names loose rest kwargs b1 none bound sig.params hrest
      (by intro p hp; exact absurd hp (by simp)) hb1 h

/-- C10: for a bound call, every argument name that survives the
skip-unbound guard of the check loop is a parameter name of the candidate
signature, so the parameter-table lookups of `find_incompatibility`
(annotation and kind) are guaranteed to succeed — the check never fails on a
missing key. -/
theorem claim_C10_lookup_safety (sig : Signature) (args : List Val)
    (kwargs bound : List (String × Val)) (toCheck : List String) (n : String)
    (hbind : pythonBind sig args kwargs false = .ok bound)
    (hmem : n ∈ toCheck)
    (hb : (assocFind bound n).isSome) :
    (sigFind sig n).isSome := by
  obtain ⟨v, hv⟩ := Option.isSome_iff_exists.mp hb
  have hkv := assocFind_mem hv
  obtain ⟨p, hp, hname⟩ := pythonBind_names sig args kwargs false bound hbind (n, v) hkv
  unfold sigFind
  rw [List.find?_isSome]
  exact ⟨p, hp, by simp [hname]⟩

/-- Witness for C10: the bound call `f(3)` against `f(x: int)` binds `x`, and
the parameter-table lookup for `x` succeeds. -/
theorem claim_C10_witness : (sigFind exSigX "x").isSome :=
  claim_C10_lookup_safety exSigX [.vint 3] [] [("x", .vint 3)] ["x"] "x" rfl
    (by simp) rfl

/-! ## The pruning refinement (C1) -/

/-- The check loop passes exactly when every listed argument passes. -/
theorem checkFold_eq_none_iff (f : String → Option IncompatibilityReason)
    (l : List String) :
    checkFold f l = none ↔ ∀ n ∈ l, f n = none := by
  induction l with
  | nil => simp [checkFold]
  | cons n rest ih =>
    cases h : f n with
    | some r => simp [checkFold, h]
    | none => simp [checkFold, h, ih]

/-- Evaluation of the per-argument check at a bound name with a present
parameter. -/
theorem checkArgument_eq (checker : Checker) (sig : Signature)
    (bound : List (String × Val)) (n : String) (v : Val) (p : Parameter)
    (hb : assocFind bound n = some v) (hf : sigFind sig n = some p) :
    checkArgument checker sig bound n
      = (if effectiveTypeHint p.kind p.ann = .empty then none
          else checker v (effectiveTypeHint p.kind p.ann) n) := by
  simp only [checkArgument, hb, hf]

/-- Evaluation of the naive per-argument check at a bound name with a present
parameter. -/
theorem naiveCheckArgument_eq (checker : Checker) (sig : Signature)
    (bound : List (String × Val)) (n : String) (v : Val) (p : Parameter)
    (hb : assocFind bound n = some v) (hf : sigFind sig n = some p) :
    naiveCheckArgument checker sig bound n
      = (if p.ann = .empty then none
          else if effectiveTypeHint p.kind p.ann = .empty then none
          else checker v (effectiveTypeHint p.kind p.ann) n) := by
  simp only [naiveCheckArgument, hb, hf]

/-- Per-candidate refinement: if the naive check-everything loop accepts a
bound call, the pruned loop accepts it for *any* set of names to check —
provided no variadic parameter of the signature is unannotated (such a
parameter is skipped by the naive loop but wrapped and submitted by the
pruned one). -/
theorem pruned_check_none_of_naive (checker : Checker) (sig : Signature)
    (bound : List (String × Val)) (toCheck : List String)
    (hvar : ∀ p ∈ sig.params,
      (p.kind = .varPositional ∨ p.kind = .varKeyword) → p.ann ≠ .empty)
    (hn : checkFold (naiveCheckArgument checker sig bound) (bound.map Prod.fst)
      = none) :
    checkFold (checkArgument checker sig bound) toCheck = none := by
  rw [checkFold_eq_none_iff] at hn ⊢
  intro n hmem
  cases hb : assocFind bound n with
  | none => simp only [checkArgument, hb]
  | some v =>
    have hkey : n ∈ bound.map Prod.fst :=
      List.mem_map.mpr ⟨(n, v), assocFind_mem hb, rfl⟩
    have hnaive := hn n hkey
    cases hf : sigFind sig n with
    | none => simp only [checkArgument, hb, hf]
    | some p =>
      rw [checkArgument_eq checker sig bound n v p hb hf]
      rw [naiveCheckArgument_eq checker sig bound n v p hb hf] at hnaive
      have hpmem : p ∈ sig.params := by
        have hf2 := hf
        unfold sigFind at hf2
        exact List.mem_of_find?_eq_some hf2
      by_cases hann : p.ann = .empty
      · have hhint : effectiveTypeHint p.kind p.ann = .empty := by
          have hkind : ¬(p.kind = .varPositional ∨ p.kind = .varKeyword) :=
            fun hk => hvar p hpmem hk hann
          cases hkk : p.kind <;> simp_all [effectiveTypeHint]
        rw [if_pos hhint]
      · rw [if_neg hann] at hnaive
        exact hnaive

/-- Per-candidate refinement lifted through binding and the defaults step
(which the two resolvers share). -/
theorem findIncompatibility_none_of_naive (checker : Checker) (hasDefs : Bool)
    (origSig : Signature) (toCheck : List String) (sig : Signature)
    (args : List Val) (kwargs : List (String × Val))
    (hvar : ∀ p ∈ sig.params,
      (p.kind = .varPositional ∨ p.kind = .varKeyword) → p.ann ≠ .empty)
    (h : naiveFindIncompatibility checker hasDefs origSig sig args kwargs = none) :
    findIncompatibility checker hasDefs origSig toCheck sig args kwargs = none := by
  simp only [naiveFindIncompatibility] at h
  simp only [findIncompatibility]
  set ak := (if hasDefs = true then applyDefaultsOvertake origSig args kwargs sig
    else (args, kwargs)) with hak
  cases hpb : pythonBind sig ak.1 ak.2 false with
  | error e =>
    simp only [hpb] at h
    exact absurd h (by simp)
  | ok bound =>
    simp only [hpb] at h ⊢
    exact pruned_check_none_of_naive checker sig bound toCheck hvar h

/-- First-accepted-index comparison for two per-candidate judgements, one of
which accepts whenever the other does. -/
theorem firstMatchIndex_refines (f g : Signature → Option IncompatibilityReason)
    (sigs : List Signature)
    (h : ∀ s ∈ sigs, g s = none → f s = none) :
    (∀ i, firstMatchIndex g sigs = some i →
      ∃ j, j ≤ i ∧ firstMatchIndex f sigs = some j) ∧
    (firstMatchIndex f sigs = none → firstMatchIndex g sigs = none) := by
  induction sigs with
  | nil =>
    refine ⟨?_, fun _ => rfl⟩
    intro i hi
    simp [firstMatchIndex] at hi
  | cons s rest ih =>
    have hs := h s (List.mem_cons_self _ _)
    have ihr := ih (fun t ht => h t (List.mem_cons_of_mem _ ht))
    have hcontra : (f s).isNone = false → (g s).isNone = false := by
      intro hf
      cases hg : (g s).isNone with
      | false => rfl
      | true =>
        rw [Option.isNone_iff_eq_none] at hg
        rw [hs hg] at hf
        simp at hf
    constructor
    · intro i hi
      cases hf : (f s).isNone with
      | true =>
        exact ⟨0, Nat.zero_le i, by simp only [firstMatchIndex, hf, if_true]⟩
      | false =>
        have hg := hcontra hf
        simp only [firstMatchIndex, hg, if_false, Bool.false_eq_true] at hi
        obtain ⟨i2, hi2, hie⟩ := Option.map_eq_some'.mp hi
        obtain ⟨j2, hj2, hfr⟩ := ihr.1 i2 hi2
        refine ⟨j2 + 1, ?_, ?_⟩
        · omega
        · simp only [firstMatchIndex, hf, if_false, Bool.false_eq_true, hfr,
            Option.map_some']
    · intro hfn
      cases hf : (f s).isNone with
      | true =>
        rw [firstMatchIndex, hf] at hfn
        exact absurd hfn (by simp)
      | false =>
        rw [firstMatchIndex, hf] at hfn
        have hrest : firstMatchIndex f rest = none := by
          cases hfr : firstMatchIndex f rest with
          | none => rfl
          | some j =>
            rw [hfr] at hfn
            exact absurd hfn (by simp)
        have hgrest := ihr.2 hrest
        have hg := hcontra hf
        rw [firstMatchIndex, hg, hgrest]
        rfl

/-- C1 (amended): the pruned resolver *refines* the naive check-everything
reference resolver rather than coinciding with it. Provided every
variadic parameter of every candidate carries an annotation: whenever the
naive resolver selects a candidate, the pruned resolver selects that
candidate or an earlier-declared one, and whenever the pruned resolver
rejects all candidates the naive resolver does too. Full outcome equality
fails: the pruned resolver may select a candidate whose non-relevant
parameters the naive resolver rejects (see the counterexample). -/
theorem claim_C1_pruning_refines (checker : Checker) (hasDefs : Bool)
    (origSig : Signature) (sigs : List Signature) (args : List Val)
    (kwargs : List (String × Val))
    (hvar : ∀ sig ∈ sigs, ∀ p ∈ sig.params,
      (p.kind = .varPositional ∨ p.kind = .varKeyword) → p.ann ≠ .empty) :
    (∀ i, naiveOutcome checker hasDefs origSig sigs args kwargs = some i →
      ∃ j, j ≤ i ∧ prunedOutcome checker hasDefs origSig sigs args kwargs = some j)
    ∧ (prunedOutcome checker hasDefs origSig sigs args kwargs = none →
        naiveOutcome checker hasDefs origSig sigs args kwargs = none) := by
  unfold prunedOutcome naiveOutcome
  exact firstMatchIndex_refines _ _ sigs
    (fun s hs hnone => findIncompatibility_none_of_naive checker hasDefs origSig
      (findArgumentsToCheck sigs) s args kwargs (hvar s hs) hnone)

/-- Witness for C1 (amended): on the matching call `f(3)` against the single
candidate `f(x: int)` the naive resolver selects candidate 0, and the pruned
resolver selects a candidate no later than it. -/
theorem claim_C1_witness :
    ∃ j, j ≤ 0 ∧ prunedOutcome basicChecker false exStubX [exSigX] [.vint 3] []
      = some j :=
  (claim_C1_pruning_refines basicChecker false exStubX [exSigX] [.vint 3] []
    (by decide)).1 0 rfl

/-! ## Lemmas about the analyzer (C6, C7) -/

/-- Membership in the set-insertion. -/
theorem mem_insertIfNew {α : Type} [DecidableEq α] (l : List α) (x y : α) :
    y ∈ insertIfNew l x ↔ y ∈ l ∨ y = x := by
  unfold insertIfNew
  by_cases h : x ∈ l
  · rw [if_pos h]
    constructor
    · exact Or.inl
    · rintro (hy | rfl)
      · exact hy
      · exact h
  · rw [if_neg h]
    simp

/-- Set-insertion keeps the list duplicate-free. -/
theorem nodup_insertIfNew {α : Type} [DecidableEq α] {l : List α} (x : α)
    (h : l.Nodup) : (insertIfNew l x).Nodup := by
  unfold insertIfNew
  by_cases hx : x ∈ l
  · rw [if_pos hx]
    exact h
  · rw [if_neg hx]
    simp [List.nodup_append, h, hx]

/-- `assocSet` writes the requested key. -/
theorem assocFind_assocSet_self {κ α : Type} [DecidableEq κ]
    (l : List (κ × α)) (k : κ) (v : α) :
    assocFind (assocSet l k v) k = some v := by
  induction l with
  | nil => simp [assocSet, assocFind]
  | cons hd tl ih =>
    obtain ⟨k1, v1⟩ := hd
    by_cases h : k1 = k
    · subst h
      simp [assocSet, assocFind]
    · simp [assocSet, assocFind, h, ih]

/-- `assocSet` leaves every other key unchanged. -/
theorem assocFind_assocSet_ne {κ α : Type} [DecidableEq κ]
    (l : List (κ × α)) (k k' : κ) (v : α) (h : k' ≠ k) :
    assocFind (assocSet l k v) k' = assocFind l k' := by
  induction l with
  | nil => simp [assocSet, assocFind, Ne.symm h]
  | cons hd tl ih =>
    obtain ⟨k1, v1⟩ := hd
    by_cases h1 : k1 = k
    · subst h1
      simp [assocSet, assocFind, Ne.symm h]
    · by_cases h2 : k1 = k'
      · subst h2
        simp [assocSet, assocFind, h1]
      · simp [assocSet, assocFind, h1, h2, ih]

/-- The key set after `assocSet`. -/
theorem mem_keys_assocSet {κ α : Type} [DecidableEq κ]
    (l : List (κ × α)) (k k' : κ) (v : α) :
    k' ∈ (assocSet l k v).map Prod.fst ↔ k' ∈ l.map Prod.fst ∨ k' = k := by
  induction l with
  | nil => simp [assocSet]
  | cons hd tl ih =>
    obtain ⟨k1, v1⟩ := hd
    by_cases h : k1 = k
    · subst h
      simp [assocSet]
      tauto
    · simp [assocSet, h, ih]
      tauto

/-- `assocSet` keeps the key list duplicate-free. -/
theorem keys_nodup_assocSet {κ α : Type} [DecidableEq κ]
    {l : List (κ × α)} (k : κ) (v : α) (h : (l.map Prod.fst).Nodup) :
    ((assocSet l k v).map Prod.fst).Nodup := by
  induction l with
  | nil => simp [assocSet]
  | cons hd tl ih =>
    obtain ⟨k1, v1⟩ := hd
    simp only [List.map_cons, List.nodup_cons] at h
    obtain ⟨hk1, htl⟩ := h
    by_cases hk : k1 = k
    · subst hk
      have hset : assocSet ((k1, v1) :: tl) k1 v = (k1, v) :: tl := by
        simp [assocSet]
      rw [hset, List.map_cons, List.nodup_cons]
      exact ⟨hk1, htl⟩
    · have hset : assocSet ((k1, v1) :: tl) k v = (k1, v1) :: assocSet tl k v := by
        simp [assocSet, hk]
      rw [hset, List.map_cons, List.nodup_cons]
      refine ⟨?_, ih htl⟩
      rw [mem_keys_assocSet]
      rintro (hmem | rfl)
      · exact hk1 hmem
      · exact hk rfl

/-- In a table with duplicate-free keys, membership determines the lookup. -/
theorem assocFind_of_mem_nodup {κ α : Type} [DecidableEq κ]
    {l : List (κ × α)} {kv : κ × α} (hmem : kv ∈ l)
    (h : (l.map Prod.fst).Nodup) : assocFind l kv.1 = some kv.2 := by
  induction l with
  | nil => simp at hmem
  | cons hd tl ih =>
    obtain ⟨k1, v1⟩ := hd
    simp only [List.map_cons, List.nodup_cons] at h
    obtain ⟨hk1, htl⟩ := h
    rcases List.mem_cons.mp hmem with hmem | hmem
    · subst hmem
      simp [assocFind]
    · have hne : k1 ≠ kv.1 := by
        intro he
        exact hk1 (he ▸ List.mem_map.mpr ⟨kv, hmem, rfl⟩)
      simp only [assocFind, if_neg hne]
      exact ih hmem htl

/-- The unpack flag after one analyzer step. -/
theorem analyzerStep_vup (st : AnalyzerState) (pos : Nat) (p : Parameter) :
    (analyzerStep st pos p).variadicUnpackPresent
      = (st.variadicUnpackPresent || unpackLike p.ann) := by
  unfold analyzerStep analyzerStepKw
  split
  all_goals
    unfold analyzerStepPos
    split
  all_goals
    unfold analyzerStepUnpack analyzerStepAll
    split <;> simp_all

/-- The collected argument names after one analyzer step. -/
theorem analyzerStep_allArgs (st : AnalyzerState) (pos : Nat) (p : Parameter) :
    (analyzerStep st pos p).allArguments = insertIfNew st.allArguments p.name := by
  unfold analyzerStep analyzerStepKw
  split
  all_goals
    unfold analyzerStepPos
    split
  all_goals
    unfold analyzerStepUnpack analyzerStepAll
    split <;> rfl

/-- The flattened traversal of `_find_arguments_to_check`: all enumerated
parameters of all candidate signatures, in traversal order. -/
def allSteps : List Signature → List (Nat × Parameter)
  | [] => []
  | sig :: rest => sig.params.enum ++ allSteps rest

theorem mem_allSteps (sigs : List Signature) (pp : Nat × Parameter) :
    pp ∈ allSteps sigs ↔ ∃ sig ∈ sigs, pp ∈ sig.params.enum := by
  induction sigs with
  | nil => simp [allSteps]
  | cons s rest ih =>
    simp only [allSteps, List.mem_append, ih, List.mem_cons]
    constructor
    · rintro (h | ⟨sig, hsig, hin⟩)
      · exact ⟨s, Or.inl rfl, h⟩
      · exact ⟨sig, Or.inr hsig, hin⟩
    · rintro ⟨sig, hsig | hsig, hin⟩
      · exact Or.inl (hsig ▸ hin)
      · exact Or.inr ⟨sig, hsig, hin⟩

/-- The analyzer's nested loop is the fold of the step over the flattened
traversal. -/
theorem foldl_analyze_eq (sigs : List Signature) (st : AnalyzerState) :
    sigs.foldl analyzeSignature st
      = (allSteps sigs).foldl (fun st pp => analyzerStep st pp.1 pp.2) st := by
  induction sigs generalizing st with
  | nil => simp [allSteps]
  | cons s rest ih =>
    simp only [List.foldl_cons, allSteps, List.foldl_append]
    rw [ih]
    rfl

/-- The unpack flag of the fold: set exactly when some traversed parameter
has an unpack-like annotation. -/
theorem foldl_vup (steps : List (Nat × Parameter)) (st : AnalyzerState) :
    ((steps.foldl (fun st pp => analyzerStep st pp.1 pp.2) st).variadicUnpackPresent)
      = (st.variadicUnpackPresent || steps.any (fun pp => unpackLike pp.2.ann)) := by
  induction steps generalizing st with
  | nil => simp
  | cons pp rest ih =>
    simp only [List.foldl_cons, List.any_cons, ih, analyzerStep_vup, Bool.or_assoc]

/-- Membership in the collected argument names of the fold. -/
theorem foldl_allArgs_mem (steps : List (Nat × Parameter)) (st : AnalyzerState)
    (n : String) :
    n ∈ (steps.foldl (fun st pp => analyzerStep st pp.1 pp.2) st).allArguments
      ↔ n ∈ st.allArguments ∨ ∃ pp ∈ steps, (pp : Nat × Parameter).2.name = n := by
  induction steps generalizing st with
  | nil => simp
  | cons pp rest ih =>
    simp only [List.foldl_cons, ih, analyzerStep_allArgs, mem_insertIfNew,
      List.mem_cons]
    constructor
    · rintro (⟨h | h⟩ | ⟨q, hq, hname⟩)
      · exact Or.inl h
      · exact Or.inr ⟨pp, Or.inl rfl, h.symm ▸ rfl⟩
      · exact Or.inr ⟨q, Or.inr hq, hname⟩
    · rintro (h | ⟨q, hq | hq, hname⟩)
      · exact Or.inl (Or.inl h)
      · exact Or.inl (Or.inr (hq ▸ hname.symm))
      · exact Or.inr ⟨q, hq, hname⟩

/-- The second component of an enumerated entry is a list member. -/
theorem enum_snd_mem {α : Type} {l : List α} {i : Nat} {x : α}
    (h : (i, x) ∈ l.enum) : x ∈ l := by
  rw [List.mk_mem_enum_iff_getElem?] at h
  obtain ⟨hlt, hx⟩ := List.getElem?_eq_some.mp h
  exact hx ▸ List.getElem_mem hlt

/-- Every list member appears in the enumeration. -/
theorem mem_enum_of_mem {α : Type} {l : List α} {x : α} (h : x ∈ l) :
    ∃ i, (i, x) ∈ l.enum := by
  obtain ⟨i, hi, hx⟩ := List.mem_iff_getElem.mp h
  exact ⟨i, List.mk_mem_enum_iff_getElem?.mpr (by rw [List.getElem?_eq_getElem hi, hx])⟩

/-- Names of the flattened traversal are exactly the parameter names of the
candidates. -/
theorem allSteps_names (sigs : List Signature) (n : String) :
    (∃ pp ∈ allSteps sigs, (pp : Nat × Parameter).2.name = n)
      ↔ ∃ sig ∈ sigs, ∃ p ∈ sig.params, p.name = n := by
  constructor
  · rintro ⟨⟨i, p⟩, hmem, hname⟩
    obtain ⟨sig, hsig, hin⟩ := (mem_allSteps _ _).mp hmem
    exact ⟨sig, hsig, p, enum_snd_mem hin, hname⟩
  · rintro ⟨sig, hsig, p, hp, hname⟩
    obtain ⟨i, hi⟩ := mem_enum_of_mem hp
    exact ⟨(i, p), (mem_allSteps _ _).mpr ⟨sig, hsig, hi⟩, hname⟩

/-- C7: when some candidate declares a variadic-positional or
variadic-keyword parameter whose annotation is an unpack, the analyzer marks
every parameter name occurring in any candidate signature as relevant. -/
theorem claim_C7_unpack_checks_everything (sigs : List Signature)
    (h : ∃ sig ∈ sigs, ∃ p ∈ sig.params,
      (p.kind = .varPositional ∨ p.kind = .varKeyword) ∧ ∃ t, p.ann = .unpack t) :
    ∀ n, n ∈ findArgumentsToCheck sigs
      ↔ ∃ sig ∈ sigs, ∃ p ∈ sig.params, p.name = n := by
  obtain ⟨sig, hsig, p, hp, _, t, ht⟩ := h
  have hvup : (sigs.foldl analyzeSignature initAnalyzerState).variadicUnpackPresent
      = true := by
    rw [foldl_analyze_eq, foldl_vup]
    have hany : (allSteps sigs).any (fun pp => unpackLike pp.2.ann) = true := by
      rw [List.any_eq_true]
      obtain ⟨i, hi⟩ := mem_enum_of_mem hp
      exact ⟨(i, p), (mem_allSteps _ _).mpr ⟨sig, hsig, hi⟩, by rw [ht]; rfl⟩
    rw [hany]
    simp [initAnalyzerState]
  intro n
  simp only [findArgumentsToCheck, hvup, if_true]
  rw [foldl_analyze_eq, foldl_allArgs_mem]
  simp only [initAnalyzerState]
  rw [allSteps_names]
  simp

/-- Witness for C7: with candidates `f(*args: Unpack[tuple[int, ...]])` and
`f(x: int)`, every name (in particular `x`) is relevant. -/
theorem claim_C7_witness :
    "x" ∈ findArgumentsToCheck [exSigUnpack, exSigX]
      ↔ ∃ sig ∈ [exSigUnpack, exSigX], ∃ p ∈ sig.params, p.name = "x" :=
  claim_C7_unpack_checks_everything [exSigUnpack, exSigX]
    ⟨exSigUnpack, by simp,
      ⟨"args", .varPositional, .unpack (.tupleOf (.prim "int")), none⟩,
      by simp [exSigUnpack], Or.inl rfl, ⟨.tupleOf (.prim "int"), rfl⟩⟩ "x"

/-- The invariant of the analyzer's accumulator relative to a predicate `S`
over the enumerated parameters processed so far: every recorded positional
type or name at an index comes from a positional-eligible parameter at that
index; every type recorded under a name comes from a keyword-eligible or
variadic parameter with that name; recorded type sets are duplicate-free; and
the three tables have duplicate-free keys. -/
structure AnalyzerOk (S : Nat → Parameter → Prop) (st : AnalyzerState) : Prop where
  posTypes : ∀ pos ts, assocFind st.posFoundTypes pos = some ts →
    ts.Nodup ∧ ∀ t ∈ ts, ∃ p, S pos p ∧ posEligible p.kind = true ∧ p.ann = t
  posNames : ∀ pos ns, assocFind st.posArgNames pos = some ns →
    ∀ n ∈ ns, ∃ p, S pos p ∧ posEligible p.kind = true ∧ p.name = n
  kwTypes : ∀ n ts, assocFind st.kwFoundTypes n = some ts →
    ts.Nodup ∧ ∀ t ∈ ts, ∃ pos p, S pos p ∧ kwEligible p.kind = true ∧
      p.name = n ∧ p.ann = t
  posTypesKeys : (st.posFoundTypes.map Prod.fst).Nodup
  posNamesKeys : (st.posArgNames.map Prod.fst).Nodup
  kwTypesKeys : (st.kwFoundTypes.map Prod.fst).Nodup

/-- A duplicate-free list of length at least two has two distinct members. -/
theorem two_mem_distinct_of_nodup {α : Type} {ts : List α} (hnd : ts.Nodup)
    (hlen : 1 < ts.length) : ∃ t1 ∈ ts, ∃ t2 ∈ ts, t1 ≠ t2 := by
  cases ts with
  | nil => simp at hlen
  | cons t1 rest =>
    cases rest with
    | nil => simp at hlen
    | cons t2 rest2 =>
      rw [List.nodup_cons] at hnd
      exact ⟨t1, by simp, t2, by simp,
        fun he => hnd.1 (he ▸ List.mem_cons_self _ _)⟩

theorem analyzerOk_init (S : Nat → Parameter → Prop) :
    AnalyzerOk S initAnalyzerState := by
  refine ⟨?_, ?_, ?_, ?_, ?_, ?_⟩ <;> simp [initAnalyzerState, assocFind]

/-- The positional bookkeeping update preserves the invariant. -/
theorem analyzerOk_update_pos (S : Nat → Parameter → Prop) (st : AnalyzerState)
    (hok : AnalyzerOk S st) (pos : Nat) (p : Parameter) (hp : S pos p)
    (hkind : posEligible p.kind = true) :
    AnalyzerOk S
      { st with
        posArgNames := assocSet st.posArgNames pos
          (insertIfNew (assocFindD st.posArgNames pos []) p.name)
        posFoundTypes := assocSet st.posFoundTypes pos
          (insertIfNew (assocFindD st.posFoundTypes pos []) p.ann) } := by
  refine ⟨?_, ?_, ?_, ?_, ?_, ?_⟩
  · intro pos' ts hfind
    dsimp only at hfind
    by_cases hpos : pos' = pos
    · subst hpos
      rw [assocFind_assocSet_self] at hfind
      injection hfind with hts
      subst hts
      have base : (assocFindD st.posFoundTypes pos' []).Nodup ∧
          ∀ t ∈ assocFindD st.posFoundTypes pos' [],
            ∃ p2, S pos' p2 ∧ posEligible p2.kind = true ∧ p2.ann = t := by
        cases hf0 : assocFind st.posFoundTypes pos' with
        | none => simp [assocFindD, hf0]
        | some ts0 =>
          rw [show assocFindD st.posFoundTypes pos' [] = ts0 from by
            simp [assocFindD, hf0]]
          exact hok.posTypes pos' ts0 hf0
      refine ⟨nodup_insertIfNew _ base.1, ?_⟩
      intro t ht
      rcases (mem_insertIfNew _ _ _).mp ht with ht | rfl
      · exact base.2 t ht
      · exact ⟨p, hp, hkind, rfl⟩
    · rw [assocFind_assocSet_ne _ _ _ _ hpos] at hfind
      exact hok.posTypes pos' ts hfind
  · intro pos' ns hfind
    dsimp only at hfind
    by_cases hpos : pos' = pos
    · subst hpos
      rw [assocFind_assocSet_self] at hfind
      injection hfind with hns
      subst hns
      intro n hn
      rcases (mem_insertIfNew _ _ _).mp hn with hn | rfl
      · cases hf0 : assocFind st.posArgNames pos' with
        | none =>
          rw [show assocFindD st.posArgNames pos' [] = [] from by
            simp [assocFindD, hf0]] at hn
          simp at hn
        | some ns0 =>
          rw [show assocFindD st.posArgNames pos' [] = ns0 from by
            simp [assocFindD, hf0]] at hn
          exact hok.posNames pos' ns0 hf0 n hn
      · exact ⟨p, hp, hkind, rfl⟩
    · rw [assocFind_assocSet_ne _ _ _ _ hpos] at hfind
      exact hok.posNames pos' ns hfind
  · intro n ts hfind
    dsimp only at hfind
    exact hok.kwTypes n ts hfind
  · dsimp only
    exact keys_nodup_assocSet _ _ hok.posTypesKeys
  · dsimp only
    exact keys_nodup_assocSet _ _ hok.posNamesKeys
  · dsimp only
    exact hok.kwTypesKeys

/-- The keyword bookkeeping update preserves the invariant. -/
theorem analyzerOk_update_kw (S : Nat → Parameter → Prop) (st : AnalyzerState)
    (hok : AnalyzerOk S st) (pos : Nat) (p : Parameter) (hp : S pos p)
    (hkind : kwEligible p.kind = true) :
    AnalyzerOk S
      { st with
        kwFoundTypes := assocSet st.kwFoundTypes p.name
          (insertIfNew (assocFindD st.kwFoundTypes p.name []) p.ann) } := by
  refine ⟨?_, ?_, ?_, ?_, ?_, ?_⟩
  · intro pos' ts hfind
    dsimp only at hfind
    exact hok.posTypes pos' ts hfind
  · intro pos' ns hfind
    dsimp only at hfind
    exact hok.posNames pos' ns hfind
  · intro n ts hfind
    dsimp only at hfind
    by_cases hn : n = p.name
    · rw [hn] at hfind
      rw [assocFind_assocSet_self] at hfind
      injection hfind with hts
      subst hts
      have base : (assocFindD st.kwFoundTypes p.name []).Nodup ∧
          ∀ t ∈ assocFindD st.kwFoundTypes p.name [],
            ∃ pos2 p2, S pos2 p2 ∧ kwEligible p2.kind = true ∧
              p2.name = p.name ∧ p2.ann = t := by
        cases hf0 : assocFind st.kwFoundTypes p.name with
        | none => simp [assocFindD, hf0]
        | some ts0 =>
          rw [show assocFindD st.kwFoundTypes p.name [] = ts0 from by
            simp [assocFindD, hf0]]
          exact hok.kwTypes p.name ts0 hf0
      refine ⟨nodup_insertIfNew _ base.1, ?_⟩
      intro t ht
      rcases (mem_insertIfNew _ _ _).mp ht with ht | rfl
      · obtain ⟨pos2, p2, hS, hk, hnm, ha⟩ := base.2 t ht
        exact ⟨pos2, p2, hS, hk, hnm.trans hn.symm, ha⟩
      · exact ⟨pos, p, hp, hkind, hn.symm, rfl⟩
    · rw [assocFind_assocSet_ne _ _ _ _ hn] at hfind
      exact hok.kwTypes n ts hfind
  · dsimp only
    exact hok.posTypesKeys
  · dsimp only
    exact hok.posNamesKeys
  · dsimp only
    exact keys_nodup_assocSet _ _ hok.kwTypesKeys

theorem analyzerOk_stepAll (S : Nat → Parameter → Prop) (st : AnalyzerState)
    (p : Parameter) (hok : AnalyzerOk S st) : AnalyzerOk S (analyzerStepAll st p) :=
  ⟨hok.posTypes, hok.posNames, hok.kwTypes, hok.posTypesKeys, hok.posNamesKeys,
    hok.kwTypesKeys⟩

theorem analyzerOk_stepUnpack (S : Nat → Parameter → Prop) (st : AnalyzerState)
    (p : Parameter) (hok : AnalyzerOk S st) :
    AnalyzerOk S (analyzerStepUnpack st p) := by
  unfold analyzerStepUnpack
  split
  · exact ⟨hok.posTypes, hok.posNames, hok.kwTypes, hok.posTypesKeys,
      hok.posNamesKeys, hok.kwTypesKeys⟩
  · exact hok

theorem analyzerOk_stepPos (S : Nat → Parameter → Prop) (st : AnalyzerState)
    (pos : Nat) (p : Parameter) (hok : AnalyzerOk S st) (hp : S pos p) :
    AnalyzerOk S (analyzerStepPos st pos p) := by
  unfold analyzerStepPos
  split
  · rename_i hc
    refine analyzerOk_update_pos S st hok pos p hp ?_
    rcases hc.1 with h | h <;> unfold posEligible <;> rw [h] <;> rfl
  · exact hok

theorem analyzerOk_stepKw (S : Nat → Parameter → Prop) (st : AnalyzerState)
    (pos : Nat) (p : Parameter) (hok : AnalyzerOk S st) (hp : S pos p) :
    AnalyzerOk S (analyzerStepKw st pos p) := by
  unfold analyzerStepKw
  split
  · rename_i hc
    refine analyzerOk_update_kw S st hok pos p hp ?_
    rcases hc.1 with h | h | h | h <;> unfold kwEligible <;> rw [h] <;> rfl
  · exact hok

theorem analyzerOk_step (S : Nat → Parameter → Prop) (st : AnalyzerState)
    (pos : Nat) (p : Parameter) (hok : AnalyzerOk S st) (hp : S pos p) :
    AnalyzerOk S (analyzerStep st pos p) :=
  analyzerOk_stepKw S _ pos p
    (analyzerOk_stepPos S _ pos p
      (analyzerOk_stepUnpack S _ p (analyzerOk_stepAll S st p hok)) hp) hp

theorem analyzerOk_foldl (S : Nat → Parameter → Prop)
    (steps : List (Nat × Parameter)) :
    ∀ st, AnalyzerOk S st → (∀ pp ∈ steps, S pp.1 pp.2) →
    AnalyzerOk S (steps.foldl (fun st pp => analyzerStep st pp.1 pp.2) st) := by
  induction steps with
  | nil =>
    intro st hok _
    exact hok
  | cons pp rest ih =>
    intro st hok hsteps
    rw [List.foldl_cons]
    exact ih _ (analyzerOk_step S st pp.1 pp.2 hok (hsteps pp (List.mem_cons_self _ _)))
      (fun q hq => hsteps q (List.mem_cons_of_mem _ hq))

/-- A positional-eligible enumerated parameter contributes its annotation to
the position's observed types. -/
theorem mem_posTypesAt_of_step (sigs : List Signature) (pos : Nat) (p : Parameter)
    (hmem : (pos, p) ∈ allSteps sigs) (hkind : posEligible p.kind = true) :
    p.ann ∈ posTypesAt sigs pos := by
  obtain ⟨sig, hsig, hin⟩ := (mem_allSteps _ _).mp hmem
  unfold posTypesAt
  rw [List.mem_flatMap]
  refine ⟨sig, hsig, ?_⟩
  rw [List.mem_filterMap]
  exact ⟨(pos, p), hin, by simp [hkind]⟩

/-- A keyword-eligible or variadic parameter contributes its annotation to
its name's observed types. -/
theorem mem_kwTypesAt_of_step (sigs : List Signature) (pos : Nat) (p : Parameter)
    (n : String) (hmem : (pos, p) ∈ allSteps sigs)
    (hkind : kwEligible p.kind = true) (hname : p.name = n) :
    p.ann ∈ kwTypesAt sigs n := by
  obtain ⟨sig, hsig, hin⟩ := (mem_allSteps _ _).mp hmem
  unfold kwTypesAt
  rw [List.mem_flatMap]
  refine ⟨sig, hsig, ?_⟩
  rw [List.mem_filterMap]
  exact ⟨p, enum_snd_mem hin, by simp [hname, hkind]⟩

/-- C6 (amended): with no unpack-like annotation among the candidates, a name
is in the analyzer's result *only if* either it occurs as a
positional-eligible parameter at a position where more than one distinct
declared type was observed, or more than one distinct declared type was
observed at that name over keyword-eligible and variadic parameters. (The
converse of the claim fails — see the counterexample: a parameter whose
annotation duplicates one already seen at its position is omitted.) -/
theorem claim_C6_amended (sigs : List Signature) (n : String)
    (hnu : ∀ sig ∈ sigs, ∀ p ∈ sig.params, unpackLike p.ann = false)
    (hn : n ∈ findArgumentsToCheck sigs) :
    (∃ pos sig p, sig ∈ sigs ∧ (pos, p) ∈ sig.params.enum ∧ p.name = n ∧
        posEligible p.kind = true ∧
        ∃ t1 ∈ posTypesAt sigs pos, ∃ t2 ∈ posTypesAt sigs pos, t1 ≠ t2) ∨
    (∃ t1 ∈ kwTypesAt sigs n, ∃ t2 ∈ kwTypesAt sigs n, t1 ≠ t2) := by
  have hvup : (sigs.foldl analyzeSignature initAnalyzerState).variadicUnpackPresent
      = false := by
    rw [foldl_analyze_eq, foldl_vup]
    have hany : (allSteps sigs).any (fun pp => unpackLike pp.2.ann) = false := by
      rw [List.any_eq_false]
      rintro ⟨i, p⟩ hmem
      obtain ⟨sig, hsig, hin⟩ := (mem_allSteps _ _).mp hmem
      simp [hnu sig hsig p (enum_snd_mem hin)]
    rw [hany]
    simp [initAnalyzerState]
  have hok : AnalyzerOk (fun pos p => (pos, p) ∈ allSteps sigs)
      (sigs.foldl analyzeSignature initAnalyzerState) := by
    rw [foldl_analyze_eq]
    exact analyzerOk_foldl _ _ _ (analyzerOk_init _) (fun pp hp => hp)
  simp only [findArgumentsToCheck, hvup, Bool.false_eq_true, if_false] at hn
  rcases List.mem_append.mp hn with hn | hn
  · rw [List.mem_flatMap] at hn
    obtain ⟨pt, hptmem, hnin⟩ := hn
    rw [List.mem_filter] at hptmem
    obtain ⟨hptmem, hlen⟩ := hptmem
    have hlen2 : 1 < pt.2.length := of_decide_eq_true hlen
    have hfindt : assocFind
        (sigs.foldl analyzeSignature initAnalyzerState).posFoundTypes pt.1
          = some pt.2 :=
      assocFind_of_mem_nodup hptmem hok.posTypesKeys
    obtain ⟨hnd, helems⟩ := hok.posTypes pt.1 pt.2 hfindt
    obtain ⟨t1, ht1, t2, ht2, hne⟩ := two_mem_distinct_of_nodup hnd hlen2
    have hsome : ∃ ns, assocFind
        (sigs.foldl analyzeSignature initAnalyzerState).posArgNames pt.1 = some ns
          ∧ n ∈ ns := by
      cases hf : assocFind
          (sigs.foldl analyzeSignature initAnalyzerState).posArgNames pt.1 with
      | none =>
        rw [show assocFindD
            (sigs.foldl analyzeSignature initAnalyzerState).posArgNames pt.1 []
              = [] from by simp [assocFindD, hf]] at hnin
        simp at hnin
      | some ns =>
        refine ⟨ns, rfl, ?_⟩
        rwa [show assocFindD
            (sigs.foldl analyzeSignature initAnalyzerState).posArgNames pt.1 []
              = ns from by simp [assocFindD, hf]] at hnin
    obtain ⟨ns, hfn, hnns⟩ := hsome
    obtain ⟨p, hpS, hpkind, hpname⟩ := hok.posNames pt.1 ns hfn n hnns
    obtain ⟨sig, hsig, hin⟩ := (mem_allSteps _ _).mp hpS
    left
    refine ⟨pt.1, sig, p, hsig, hin, hpname, hpkind, ?_⟩
    obtain ⟨p1, hp1S, hp1k, hp1a⟩ := helems t1 ht1
    obtain ⟨p2, hp2S, hp2k, hp2a⟩ := helems t2 ht2
    exact ⟨t1, hp1a ▸ mem_posTypesAt_of_step sigs pt.1 p1 hp1S hp1k,
      t2, hp2a ▸ mem_posTypesAt_of_step sigs pt.1 p2 hp2S hp2k, hne⟩
  · rw [List.mem_map] at hn
    obtain ⟨nt, hntmem, hfst⟩ := hn
    rw [List.mem_filter] at hntmem
    obtain ⟨hntmem, hlen⟩ := hntmem
    have hlen2 : 1 < nt.2.length := of_decide_eq_true hlen
    have hfindt : assocFind
        (sigs.foldl analyzeSignature initAnalyzerState).kwFoundTypes nt.1
          = some nt.2 :=
      assocFind_of_mem_nodup hntmem hok.kwTypesKeys
    obtain ⟨hnd, helems⟩ := hok.kwTypes nt.1 nt.2 hfindt
    obtain ⟨t1, ht1, t2, ht2, hne⟩ := two_mem_distinct_of_nodup hnd hlen2
    right
    obtain ⟨pos1, p1, hp1S, hp1k, hp1n, hp1a⟩ := helems t1 ht1
    obtain ⟨pos2, p2, hp2S, hp2k, hp2n, hp2a⟩ := helems t2 ht2
    subst hfst
    exact ⟨t1, hp1a ▸ mem_kwTypesAt_of_step sigs pos1 p1 nt.1 hp1S hp1k hp1n,
      t2, hp2a ▸ mem_kwTypesAt_of_step sigs pos2 p2 nt.1 hp2S hp2k hp2n, hne⟩

/-- C6 counterexample: over the candidates `f(x: int)`, `f(y: int)`,
`f(x: str)` (no unpack anywhere) position 0 carries two distinct declared
types (`int` and `str`) and `y` is a positional-eligible parameter at
position 0, so the claim's if-and-only-if predicts `y` in the result — but
the analyzer omits `y` (its annotation `int` was already recorded at
position 0 when `y` was visited). -/
theorem claim_C6_counterexample :
    "y" ∉ findArgumentsToCheck [exSigX, exSigY, exSigXs]
    ∧ exSigY.params.enum = [(0, ⟨"y", .positionalOrKeyword, .prim "int", none⟩)]
    ∧ posEligible .positionalOrKeyword = true
    ∧ (TypeExpr.prim "int") ∈ posTypesAt [exSigX, exSigY, exSigXs] 0
    ∧ (TypeExpr.prim "str") ∈ posTypesAt [exSigX, exSigY, exSigXs] 0
    ∧ TypeExpr.prim "int" ≠ TypeExpr.prim "str"
    ∧ (∀ sig ∈ [exSigX, exSigY, exSigXs], ∀ p ∈ sig.params,
        unpackLike p.ann = false) := by
  refine ⟨by decide, rfl, rfl, by decide, by decide, by decide, by decide⟩

/-- Witness for C6 (amended): with candidates `f(x: int)` and `f(x: str)`,
`x` is in the result, and the amended claim produces the two distinct
observed types. -/
theorem claim_C6_witness :
    (∃ pos sig p, sig ∈ [exSigX, exSigXs] ∧ (pos, p) ∈ sig.params.enum ∧
        p.name = "x" ∧ posEligible p.kind = true ∧
        ∃ t1 ∈ posTypesAt [exSigX, exSigXs] pos,
          ∃ t2 ∈ posTypesAt [exSigX, exSigXs] pos, t1 ≠ t2) ∨
    (∃ t1 ∈ kwTypesAt [exSigX, exSigXs] "x",
      ∃ t2 ∈ kwTypesAt [exSigX, exSigXs] "x", t1 ≠ t2) :=
  claim_C6_amended [exSigX, exSigXs] "x" (by decide) (by decide)

end Overtake
